import Mathlib

/-!
Verification of `solve_ecosystem.py`: a shallow embedding of the
sustainability simulator (`simulate_set`) and the subset enumerator
(`find_sustainable_sets_for_ecosystem`), with theorems settling the
specification claims.  Python floats are modelled as rationals; the
dictionaries `cp` / `cn` are modelled as total functions `String → ℚ`
with the `dict.get(_, 0.0)` default baked into the initial state.
-/

unseal Rat.sub Rat.add Rat.mul Rat.inv

namespace EcoSolve

/-- Python string comparison on two code-point lists: lexicographic, shorter
prefix first.  Kept executable so concrete runs reduce in the kernel. -/
def strLtAux : List Char → List Char → Bool
  | [], [] => false
  | [], _ :: _ => true
  | _ :: _, [] => false
  | c :: cs, d :: ds =>
    decide (c.toNat < d.toNat) || (decide (c.toNat = d.toNat) && strLtAux cs ds)

/-- Python's `<` on strings: lexicographic comparison by code point. -/
def strLt (a b : String) : Bool := strLtAux a.data b.data

/-- The `Species` dataclass of the source (`name, typ, cp0, cn0, foods`). -/
structure Species where
  name : String
  typ : String
  cp0 : ℚ
  cn0 : ℚ
  foods : List String
deriving DecidableEq

/-- The default tolerance `eps = 1e-9` of `simulate_set`. -/
def defaultEps : ℚ := 1 / 1000000000

/-- Python's `<` on the key tuples `(cp.get(b, 0.0), b)` and `(cp.get(a, 0.0), a)`
used at line 91: reserve first, then name. -/
def keyLt (cpv : String → ℚ) (b a : String) : Prop :=
  cpv b < cpv a ∨ (cpv b = cpv a ∧ strLt b a = true)

instance (cpv : String → ℚ) (b a : String) : Decidable (keyLt cpv b a) := by
  unfold keyLt; infer_instance

/-- One comparison step of Python's `max(hungry, key=lambda a: (cp.get(a, 0.0), a))`:
the running maximum `m` is replaced by `x` exactly when the key tuple of `x`
is strictly greater (lexicographically on `(reserve, name)`). -/
def pickStep (cpv : String → ℚ) (m x : String) : String :=
  if keyLt cpv m x then x else m

/-- `max(hungry, key=lambda a: (cp.get(a, 0.0), a))` from line 91 of the source;
`none` when the list is empty (Python would raise, but the call is guarded by
the `if not hungry` check). -/
def pickEater (cpv : String → ℚ) : List String → Option String
  | [] => none
  | a :: rest => some (rest.foldl (pickStep cpv) a)

/-- The `for f in top` loop of lines 122-130: subtract `takeEach` from each
member in order, returning `none` (fail) as soon as a member's updated
reserve is `< -eps` or `≤ eps`. -/
def subtractAndCheck (eps takeEach : ℚ) : (String → ℚ) → List String → Option (String → ℚ)
  | cp, [] => some cp
  | cp, f :: rest =>
    if cp f - takeEach < -eps then none
    else if cp f - takeEach ≤ eps then none
    else subtractAndCheck eps takeEach (fun s => if s = f then cp s - takeEach else cp s) rest

/-- `max(v for _, v in available)` over a nonempty list (0 on the empty list,
which the source never reaches). -/
def maxReserve (cp : String → ℚ) : List String → ℚ
  | [] => 0
  | f :: rest => rest.foldl (fun m g => max m (cp g)) (cp f)

/-- `min(cp[f] for f in top)` over a nonempty list (0 on the empty list,
which the source never reaches). -/
def minReserve (cp : String → ℚ) : List String → ℚ
  | [] => 0
  | f :: rest => rest.foldl (fun m g => min m (cp g)) (cp f)

/-- Line 104: the allowed foods whose current reserve exceeds `eps`. -/
def availableOf (eps : ℚ) (cp : String → ℚ) (allowed : List String) : List String :=
  allowed.filter fun f => eps < cp f

/-- Line 110: the available foods within `eps` of the maximum available reserve. -/
def topOf (eps : ℚ) (cp : String → ℚ) (allowed : List String) : List String :=
  (availableOf eps cp allowed).filter fun f =>
    |cp f - maxReserve cp (availableOf eps cp allowed)| ≤ eps

/-- Result of the inner feeding loop (lines 103-133): the updated reserves on
normal exit, `fail` on a `return False`, `fuelOut` if the fuel bound is hit. -/
inductive InnerRes where
  | done (cp : String → ℚ)
  | fail
  | fuelOut

/-- The inner `while need > eps` loop of lines 103-133. -/
def innerGo (eps : ℚ) (allowed : List String) : Nat → (String → ℚ) → ℚ → InnerRes
  | 0, cp, need => if eps < need then .fuelOut else .done cp
  | fuel + 1, cp, need =>
    if eps < need then
      let available := availableOf eps cp allowed
      if available.isEmpty then .fail
      else
        let top := topOf eps cp allowed
        let k := top.length
        if k = 0 then .fail
        else
          let minTopCp := minReserve cp top
          let maxTotalTake := (k : ℚ) * minTopCp
          let takeTotal := min need maxTotalTake
          let takeEach := takeTotal / (k : ℚ)
          match subtractAndCheck eps takeEach cp top with
          | none => .fail
          | some cp2 => innerGo eps allowed fuel cp2 (need - takeTotal)
    else .done cp

/-- Result of the outer simulation loop: `pass` carries the final reserves. -/
inductive OuterRes where
  | pass (cp : String → ℚ)
  | fail
  | fuelOut

/-- The outer `while True` loop of lines 84-136 of `simulate_set`. -/
def simGo (spm : String → Species) (selected animals : List String) (eps : ℚ) :
    Nat → (String → ℚ) → (String → ℚ) → OuterRes
  | 0, _, _ => .fuelOut
  | fuel + 1, cp, cn =>
    let hungry := animals.filter fun a => eps < cn a
    match pickEater cp hungry with
    | none => .pass cp
    | some eater =>
      let need := cn eater
      if need ≤ eps then
        simGo spm selected animals eps fuel cp (fun a => if a = eater then 0 else cn a)
      else
        let allowed := (spm eater).foods.filter fun f => f ∈ selected
        if allowed.isEmpty then .fail
        else
          match innerGo eps allowed 2 cp need with
          | .fail => .fail
          | .fuelOut => .fuelOut
          | .done cp2 =>
            simGo spm selected animals eps fuel cp2 (fun a => if a = eater then 0 else cn a)

/-- Line 78: `cp = {s: sp_map[s].cp0 for s in selected}` together with the
`cp.get(x, 0.0)` default used at lines 91 and 104. -/
def initCp (spm : String → Species) (producers animals : List String) : String → ℚ :=
  fun s => if s ∈ producers ++ animals then (spm s).cp0 else 0

/-- Line 81: `cn = {a: sp_map[a].cn0 for a in animals}` (only ever read at
members of `animals`). -/
def initCn (spm : String → Species) : String → ℚ :=
  fun a => (spm a).cn0

/-- `simulate_set` run to its raw loop result.  The outer fuel
`animals.length + 1` and inner fuel `2` are proved sufficient
(`terminated_simRun`): each inner iteration either fails or zeroes the
eater's need, and each outer turn removes one hungry animal. -/
def simRun (spm : String → Species) (producers animals : List String) (eps : ℚ) : OuterRes :=
  simGo spm (producers ++ animals) animals eps (animals.length + 1)
    (initCp spm producers animals) (initCn spm)

/-- Whether an outer result is a pass. -/
def passed : OuterRes → Bool
  | .pass _ => true
  | _ => false

/-- Whether the outer loop exited by itself (did not hit the fuel bound). -/
def terminated : OuterRes → Bool
  | .fuelOut => false
  | _ => true

/-- The final reserve of species `s` when the run passes. -/
def finalReserve (r : OuterRes) (s : String) : Option ℚ :=
  match r with
  | .pass cp => some (cp s)
  | _ => none

/-- `simulate_set(sp_map, producers, animals, eps)` of lines 62-136. -/
def simulate_set (spm : String → Species) (producers animals : List String) (eps : ℚ) : Bool :=
  passed (simRun spm producers animals eps)

/-- `subtractAndCheck` instrumented to record the reserve state after every
single `cp[f] -= take_each` assignment of line 123 — the fine-grained
"points during the simulation".  Its `.2` agrees with `subtractAndCheck`
(`subtractAndCheckT_res`). -/
def subtractAndCheckT (eps takeEach : ℚ) :
    (String → ℚ) → List String → (List (String → ℚ) × Option (String → ℚ))
  | cp, [] => ([], some cp)
  | cp, f :: rest =>
    if cp f - takeEach < -eps then
      ([fun s => if s = f then cp s - takeEach else cp s], none)
    else if cp f - takeEach ≤ eps then
      ([fun s => if s = f then cp s - takeEach else cp s], none)
    else
      let r := subtractAndCheckT eps takeEach
        (fun s => if s = f then cp s - takeEach else cp s) rest
      ((fun s => if s = f then cp s - takeEach else cp s) :: r.1, r.2)

/-- `innerGo` instrumented with the same per-assignment state trace.
Its `.2` agrees with `innerGo` (`innerGoT_res`). -/
def innerGoT (eps : ℚ) (allowed : List String) :
    Nat → (String → ℚ) → ℚ → (List (String → ℚ) × InnerRes)
  | 0, cp, need => ([], if eps < need then .fuelOut else .done cp)
  | fuel + 1, cp, need =>
    if eps < need then
      let available := availableOf eps cp allowed
      if available.isEmpty then ([], .fail)
      else
        let top := topOf eps cp allowed
        let k := top.length
        if k = 0 then ([], .fail)
        else
          let minTopCp := minReserve cp top
          let maxTotalTake := (k : ℚ) * minTopCp
          let takeTotal := min need maxTotalTake
          let takeEach := takeTotal / (k : ℚ)
          let r := subtractAndCheckT eps takeEach cp top
          match r.2 with
          | none => (r.1, .fail)
          | some cp2 =>
            let r2 := innerGoT eps allowed fuel cp2 (need - takeTotal)
            (r.1 ++ r2.1, r2.2)
    else ([], .done cp)

/-- `simGo` instrumented with the same per-assignment state trace.
Its `.2` agrees with `simGo` (`simGoT_res`). -/
def simGoT (spm : String → Species) (selected animals : List String) (eps : ℚ) :
    Nat → (String → ℚ) → (String → ℚ) → (List (String → ℚ) × OuterRes)
  | 0, _, _ => ([], .fuelOut)
  | fuel + 1, cp, cn =>
    let hungry := animals.filter fun a => eps < cn a
    match pickEater cp hungry with
    | none => ([], .pass cp)
    | some eater =>
      let need := cn eater
      if need ≤ eps then
        simGoT spm selected animals eps fuel cp (fun a => if a = eater then 0 else cn a)
      else
        let allowed := (spm eater).foods.filter fun f => f ∈ selected
        if allowed.isEmpty then ([], .fail)
        else
          let ri := innerGoT eps allowed 2 cp need
          match ri.2 with
          | .fail => (ri.1, .fail)
          | .fuelOut => (ri.1, .fuelOut)
          | .done cp2 =>
            let r := simGoT spm selected animals eps fuel cp2
              (fun a => if a = eater then 0 else cn a)
            (ri.1 ++ r.1, r.2)

/-- All reserve states a run passes through: the initial reserves followed by
the state after every single subtraction the run performs. -/
def simRunTrace (spm : String → Species) (producers animals : List String) (eps : ℚ) :
    List (String → ℚ) :=
  initCp spm producers animals ::
    (simGoT spm (producers ++ animals) animals eps (animals.length + 1)
      (initCp spm producers animals) (initCn spm)).1

/-- One row of the results list built at lines 160-164. -/
structure ResultRow where
  producersStr : String
  animalsStr : String
  allSpeciesStr : String
deriving DecidableEq

/-- `", ".join(...)`. -/
def joinComma (l : List String) : String := String.intercalate ", " l

/-- The dict appended per passing set (lines 160-164). -/
def mkRow (producers animalSet : List String) : ResultRow :=
  ⟨joinComma producers, joinComma animalSet, joinComma (producers ++ animalSet)⟩

/-- `itertools.combinations(l, k)`: all length-`k` combinations of `l` in
lexicographic order of positions, elements in list order. -/
def combinations {α : Type} : Nat → List α → List (List α)
  | 0, _ => [[]]
  | _ + 1, [] => []
  | k + 1, x :: xs => (combinations k xs).map (x :: ·) ++ combinations (k + 1) xs

/-- Line 165: `cap_results is not None and len(results) >= cap_results`. -/
def capReached (cap : Option Nat) (found : Nat) : Bool :=
  match cap with
  | some n => decide (n ≤ found)
  | none => false

/-- The `for animal_set in itertools.combinations(...)` loop of lines 157-166,
returning the collected result rows together with the number of combinations
passed to `simulate_set` (`found` counts rows collected so far, for the cap
check of line 165). -/
def enumGo (spm : String → Species) (producers : List String) (cap : Option Nat) (eps : ℚ) :
    List (List String) → Nat → (List ResultRow × Nat)
  | [], _ => ([], 0)
  | c :: rest, found =>
    if simulate_set spm producers c eps then
      if capReached cap (found + 1) then ([mkRow producers c], 1)
      else
        let r := enumGo spm producers cap eps rest (found + 1)
        (mkRow producers c :: r.1, r.2 + 1)
    else
      let r := enumGo spm producers cap eps rest found
      (r.1, r.2 + 1)

/-- A Python `dict[str, Species]` in insertion order, as an association list. -/
def Eco : Type := List (String × Species)

/-- Lookup in the species dict (keys are unique in a Python dict). -/
def spmOf (eco : Eco) : String → Species :=
  fun s => (((eco.find? fun p => p.1 = s).map Prod.snd).getD ⟨"", "", 0, 0, []⟩)

/-- Line 147: names of the `Producer`-typed species, in insertion order. -/
def producersOf (eco : Eco) : List String :=
  ((eco.map Prod.snd).filter fun s => s.typ = "Producer").map Species.name

/-- Line 148: names of the `Animal`-typed species, in insertion order. -/
def animalsAllOf (eco : Eco) : List String :=
  ((eco.map Prod.snd).filter fun s => s.typ = "Animal").map Species.name

/-- `find_sustainable_sets_for_ecosystem` of lines 142-168: the `ValueError`s
of lines 150-153 become `Except.error`. -/
def find_sustainable_sets_for_ecosystem (eco : Eco) (animalsToChoose : Nat)
    (capResults : Option Nat) (eps : ℚ) : Except String (List ResultRow) :=
  let producers := producersOf eco
  let animalsAll := animalsAllOf eco
  if producers.length ≠ 3 then
    let np := producers.length
    .error s!"Expected exactly 3 producers, found {np}"
  else if animalsAll.length ≠ 10 then
    let na := animalsAll.length
    .error s!"Expected exactly 10 animals, found {na}"
  else
    .ok (enumGo (spmOf eco) producers capResults eps
          (combinations animalsToChoose animalsAll) 0).1

/-- Whether the enumerator aborted with a configuration error. -/
def exceptIsError : Except String (List ResultRow) → Bool
  | .error _ => true
  | .ok _ => false

/-- Modelled from the spec: the number of combinations a capped enumeration
inspects — every combination up to and including the one producing the
`n`-th pass (all of them when fewer than `n` pass).  Used to state that the
cap short-circuits rather than truncating. -/
def testedUntil (spm : String → Species) (producers : List String) (eps : ℚ) :
    Nat → List (List String) → Nat
  | _, [] => 0
  | n, c :: rest =>
    if simulate_set spm producers c eps then
      if n ≤ 1 then 1 else 1 + testedUntil spm producers eps (n - 1) rest
    else 1 + testedUntil spm producers eps n rest

/-! ### Lemmas about string comparison and eater selection -/

theorem strLtAux_asymm : ∀ {x y : List Char}, strLtAux x y = true → strLtAux y x = false := by
  intro x
  induction x with
  | nil => intro y _; cases y <;> simp [strLtAux]
  | cons c cs ih =>
    intro y h
    cases y with
    | nil => simp [strLtAux] at h
    | cons d ds =>
      simp [strLtAux] at h ⊢
      rcases h with h | ⟨he, hr⟩
      · constructor
        · omega
        · intro h'; omega
      · exact ⟨by omega, fun _ => ih hr⟩

theorem strLt_asymm {x y : String} (h : strLt x y = true) : strLt y x = false :=
  strLtAux_asymm h

theorem keyLt_asymm {cpv : String → ℚ} {x a : String} (h : keyLt cpv x a) :
    ¬ keyLt cpv a x := by
  rcases h with h | ⟨he, hs⟩ <;> rintro (h' | ⟨h'e, h's⟩)
  · exact absurd h' (lt_asymm h)
  · rw [h'e] at h; exact lt_irrefl _ h
  · rw [he] at h'; exact lt_irrefl _ h'
  · rw [strLt_asymm hs] at h's; cases h's

theorem pickStep_cases (cpv : String → ℚ) (m x : String) :
    pickStep cpv m x = x ∨ pickStep cpv m x = m := by
  unfold pickStep; split <;> simp

theorem pickStep_of_keyLt {cpv : String → ℚ} {x a : String} (h : keyLt cpv x a) :
    pickStep cpv x a = a ∧ pickStep cpv a x = a := by
  constructor
  · unfold pickStep; rw [if_pos h]
  · unfold pickStep; rw [if_neg (keyLt_asymm h)]

theorem foldl_pick_mem (cpv : String → ℚ) :
    ∀ (rest : List String) (m : String), rest.foldl (pickStep cpv) m ∈ m :: rest := by
  intro rest
  induction rest with
  | nil => intro m; simp
  | cons x t ih =>
    intro m
    have h := ih (pickStep cpv m x)
    rcases pickStep_cases cpv m x with hx | hm
    · rw [hx] at h
      simp only [List.foldl_cons, hx]
      rcases List.mem_cons.mp h with h | h
      · simp [h]
      · simp [h]
    · rw [hm] at h
      simp only [List.foldl_cons, hm]
      rcases List.mem_cons.mp h with h | h
      · simp [h]
      · simp [h]

theorem pickEater_mem {cpv : String → ℚ} {l : List String} {a : String}
    (h : pickEater cpv l = some a) : a ∈ l := by
  cases l with
  | nil => simp [pickEater] at h
  | cons x t =>
    simp only [pickEater, Option.some.injEq] at h
    have := foldl_pick_mem cpv t x
    rw [h] at this
    exact this

theorem foldl_pick_eq (cpv : String → ℚ) (a : String) :
    ∀ (t : List String) (m : String),
      (m = a ∨ (keyLt cpv m a ∧ a ∈ t)) →
      (∀ b ∈ t, b ≠ a → keyLt cpv b a) →
      t.foldl (pickStep cpv) m = a := by
  intro t
  induction t with
  | nil =>
    intro m hm _
    rcases hm with hm | ⟨_, hmem⟩
    · simpa using hm
    · simp at hmem
  | cons x t ih =>
    intro m hm hb
    simp only [List.foldl_cons]
    have hbt : ∀ b ∈ t, b ≠ a → keyLt cpv b a := fun b h1 h2 => hb b (by simp [h1]) h2
    by_cases hx : x = a
    · have hacc : pickStep cpv m x = a := by
        rcases hm with hm | ⟨hlt, _⟩
        · rw [hx, hm]; unfold pickStep; split <;> rfl
        · rw [hx]; exact (pickStep_of_keyLt hlt).1
      rw [hacc]
      exact ih a (Or.inl rfl) hbt
    · have hxlt : keyLt cpv x a := hb x (by simp) hx
      rcases hm with hm | ⟨hlt, hmem⟩
      · rw [hm, (pickStep_of_keyLt hxlt).2]
        exact ih a (Or.inl rfl) hbt
      · have hmem' : a ∈ t := by
          rcases List.mem_cons.mp hmem with h | h
          · exact absurd h.symm hx
          · exact h
        rcases pickStep_cases cpv m x with hpx | hpm
        · rw [hpx]; exact ih x (Or.inr ⟨hxlt, hmem'⟩) hbt
        · rw [hpm]; exact ih m (Or.inr ⟨hlt, hmem'⟩) hbt

theorem pickEater_max {cpv : String → ℚ} {l : List String} {a : String}
    (hmem : a ∈ l) (hmax : ∀ b ∈ l, b ≠ a → keyLt cpv b a) :
    pickEater cpv l = some a := by
  cases l with
  | nil => simp at hmem
  | cons x t =>
    simp only [pickEater, Option.some.injEq]
    by_cases hx : x = a
    · exact foldl_pick_eq cpv a t x (Or.inl hx) fun b h1 h2 => hmax b (by simp [h1]) h2
    · have hmem' : a ∈ t := by
        rcases List.mem_cons.mp hmem with h | h
        · exact absurd h.symm hx
        · exact h
      exact foldl_pick_eq cpv a t x (Or.inr ⟨hmax x (by simp) hx, hmem'⟩)
        fun b h1 h2 => hmax b (by simp [h1]) h2

/-! ### Lemmas about the subtraction loop -/

theorem subtractAndCheck_cons (eps te : ℚ) (cp : String → ℚ) (f : String) (rest : List String) :
    subtractAndCheck eps te cp (f :: rest) =
      if cp f - te < -eps then none
      else if cp f - te ≤ eps then none
      else subtractAndCheck eps te (fun s => if s = f then cp s - te else cp s) rest := rfl

theorem subtractAndCheck_notmem {eps te : ℚ} :
    ∀ {l : List String} {cp cp2 : String → ℚ},
      subtractAndCheck eps te cp l = some cp2 → ∀ s, s ∉ l → cp2 s = cp s := by
  intro l
  induction l with
  | nil =>
    intro cp cp2 h s _
    simp only [subtractAndCheck, Option.some.injEq] at h
    rw [← h]
  | cons f rest ih =>
    intro cp cp2 h s hs
    rw [subtractAndCheck_cons] at h
    by_cases h1 : cp f - te < -eps
    · rw [if_pos h1] at h; cases h
    · rw [if_neg h1] at h
      by_cases h2 : cp f - te ≤ eps
      · rw [if_pos h2] at h; cases h
      · rw [if_neg h2] at h
        have hsf : s ≠ f := fun hc => hs (hc ▸ List.mem_cons_self f rest)
        have hsr : s ∉ rest := fun hc => hs (List.mem_cons_of_mem f hc)
        rw [ih h s hsr]
        simp [hsf]

theorem subtractAndCheck_inv {eps te : ℚ} :
    ∀ {l : List String} {cp cp2 : String → ℚ},
      subtractAndCheck eps te cp l = some cp2 → ∀ s, eps < cp2 s ∨ cp2 s = cp s := by
  intro l
  induction l with
  | nil =>
    intro cp cp2 h s
    simp only [subtractAndCheck, Option.some.injEq] at h
    rw [← h]; exact Or.inr rfl
  | cons f rest ih =>
    intro cp cp2 h s
    rw [subtractAndCheck_cons] at h
    by_cases h1 : cp f - te < -eps
    · rw [if_pos h1] at h; cases h
    · rw [if_neg h1] at h
      by_cases h2 : cp f - te ≤ eps
      · rw [if_pos h2] at h; cases h
      · rw [if_neg h2] at h
        rcases ih h s with hlt | heq
        · exact Or.inl hlt
        · by_cases hsf : s = f
          · rw [heq, if_pos hsf, hsf]
            exact Or.inl (lt_of_not_le h2)
          · rw [heq, if_neg hsf]
            exact Or.inr rfl

theorem subtractAndCheck_final_gt {eps te : ℚ} :
    ∀ {l : List String} {cp cp2 : String → ℚ},
      subtractAndCheck eps te cp l = some cp2 → ∀ f ∈ l, eps < cp2 f := by
  intro l
  induction l with
  | nil => intro cp cp2 _ f hf; simp at hf
  | cons g rest ih =>
    intro cp cp2 h f hf
    rw [subtractAndCheck_cons] at h
    by_cases h1 : cp g - te < -eps
    · rw [if_pos h1] at h; cases h
    · rw [if_neg h1] at h
      by_cases h2 : cp g - te ≤ eps
      · rw [if_pos h2] at h; cases h
      · rw [if_neg h2] at h
        rcases List.mem_cons.mp hf with hfg | hfr
        · by_cases hin : f ∈ rest
          · exact ih h f hin
          · rw [subtractAndCheck_notmem h f hin, hfg, if_pos rfl, ← hfg]
            rw [hfg]
            exact lt_of_not_le h2
        · exact ih h f hfr

theorem subtractAndCheck_first {eps te : ℚ} :
    ∀ {l : List String} {cp cp2 : String → ℚ},
      subtractAndCheck eps te cp l = some cp2 → ∀ f ∈ l, eps < cp f - te := by
  intro l
  induction l with
  | nil => intro cp cp2 _ f hf; simp at hf
  | cons g rest ih =>
    intro cp cp2 h f hf
    rw [subtractAndCheck_cons] at h
    by_cases h1 : cp g - te < -eps
    · rw [if_pos h1] at h; cases h
    · rw [if_neg h1] at h
      by_cases h2 : cp g - te ≤ eps
      · rw [if_pos h2] at h; cases h
      · rw [if_neg h2] at h
        rcases List.mem_cons.mp hf with hfg | hfr
        · rw [hfg]; exact lt_of_not_le h2
        · by_cases hfg : f = g
          · rw [hfg]; exact lt_of_not_le h2
          · have hrec := ih h f hfr
            rwa [if_neg hfg] at hrec

theorem subtractAndCheck_batch {eps te : ℚ} (heps : 0 ≤ eps) :
    ∀ {l : List String} {cp : String → ℚ}, l.Nodup →
      (∀ f ∈ l, eps < cp f - te) →
      subtractAndCheck eps te cp l = some (fun s => if s ∈ l then cp s - te else cp s) := by
  intro l
  induction l with
  | nil =>
    intro cp _ _
    simp only [subtractAndCheck, Option.some.injEq]
    funext s; simp
  | cons f rest ih =>
    intro cp hnd hgt
    have hf : eps < cp f - te := hgt f (by simp)
    have hnotmem : f ∉ rest := (List.nodup_cons.mp hnd).1
    rw [subtractAndCheck_cons, if_neg (by intro hc; linarith), if_neg (by intro hc; linarith)]
    have hrest : ∀ g ∈ rest,
        eps < (fun s => if s = f then cp s - te else cp s) g - te := by
      intro g hg
      have hgf : g ≠ f := fun hc => hnotmem (hc ▸ hg)
      simpa [hgf] using hgt g (List.mem_cons_of_mem f hg)
    rw [ih (List.nodup_cons.mp hnd).2 hrest]
    congr 1
    funext s
    by_cases hsr : s ∈ rest
    · have hsf : s ≠ f := fun hc => hnotmem (hc ▸ hsr)
      have hsc : s ∈ f :: rest := List.mem_cons_of_mem f hsr
      simp only [if_pos hsr, if_pos hsc, if_neg hsf]
    · by_cases hsf : s = f
      · have hsc : s ∈ f :: rest := by rw [hsf]; exact List.mem_cons_self f rest
        simp only [if_neg hsr, if_pos hsf, if_pos hsc]
      · have hsc : s ∉ f :: rest := by
          intro hc
          rcases List.mem_cons.mp hc with hc | hc
          · exact hsf hc
          · exact hsr hc
        simp only [if_neg hsr, if_neg hsf, if_neg hsc]

/-! ### Lemmas about `minReserve` -/

theorem foldl_min_cases (cp : String → ℚ) :
    ∀ (rest : List String) (m : ℚ),
      rest.foldl (fun x g => min x (cp g)) m = m ∨
      ∃ g ∈ rest, rest.foldl (fun x g => min x (cp g)) m = cp g := by
  intro rest
  induction rest with
  | nil => intro m; simp
  | cons x t ih =>
    intro m
    simp only [List.foldl_cons]
    rcases ih (min m (cp x)) with h | ⟨g, hg, hgeq⟩
    · rcases min_choice m (cp x) with hm | hx
      · exact Or.inl (h.trans hm)
      · exact Or.inr ⟨x, by simp, h.trans hx⟩
    · exact Or.inr ⟨g, by simp [hg], hgeq⟩

theorem minReserve_attained (cp : String → ℚ) {l : List String} (h : l ≠ []) :
    ∃ g ∈ l, minReserve cp l = cp g := by
  cases l with
  | nil => exact absurd rfl h
  | cons f rest =>
    simp only [minReserve]
    rcases foldl_min_cases cp rest (cp f) with h | ⟨g, hg, hgeq⟩
    · exact ⟨f, by simp, h⟩
    · exact ⟨g, by simp [hg], hgeq⟩

/-! ### Lemmas about the inner feeding loop -/

theorem innerGo_zero (eps : ℚ) (allowed : List String) (cp : String → ℚ) (need : ℚ) :
    innerGo eps allowed 0 cp need = if eps < need then .fuelOut else .done cp := rfl

theorem innerGo_succ (eps : ℚ) (allowed : List String) (fuel : Nat) (cp : String → ℚ) (need : ℚ) :
    innerGo eps allowed (fuel + 1) cp need =
      if eps < need then
        if (availableOf eps cp allowed).isEmpty then .fail
        else if (topOf eps cp allowed).length = 0 then .fail
        else
          match subtractAndCheck eps
              (min need (((topOf eps cp allowed).length : ℚ) *
                  minReserve cp (topOf eps cp allowed)) /
                ((topOf eps cp allowed).length : ℚ)) cp (topOf eps cp allowed) with
          | none => .fail
          | some cp2 =>
            innerGo eps allowed fuel cp2
              (need - min need (((topOf eps cp allowed).length : ℚ) *
                minReserve cp (topOf eps cp allowed)))
      else .done cp := rfl

/-- A nonempty top set forces `0 ≤ eps`: membership requires `|r - maxCp| ≤ eps`. -/
theorem eps_nonneg_of_top_ne_nil {eps : ℚ} {cp : String → ℚ} {allowed : List String}
    (h : topOf eps cp allowed ≠ []) : 0 ≤ eps := by
  obtain ⟨f, hf⟩ := List.exists_mem_of_ne_nil _ h
  have hmem := List.mem_filter.mp hf
  have habs : |cp f - maxReserve cp (availableOf eps cp allowed)| ≤ eps :=
    of_decide_eq_true hmem.2
  exact le_trans (abs_nonneg _) habs

/-- Every member of the top set is available, hence its reserve exceeds `eps`. -/
theorem top_mem_reserve_pos {eps : ℚ} {cp : String → ℚ} {allowed : List String} {f : String}
    (h : f ∈ topOf eps cp allowed) : eps < cp f := by
  have hav : f ∈ availableOf eps cp allowed := (List.mem_filter.mp h).1
  exact of_decide_eq_true (List.mem_filter.mp hav).2

/-- If the subtraction loop over the top set succeeds, the take was limited by
the eater's remaining need, not by the group capacity: `take = need`. -/
theorem take_eq_need {eps need : ℚ} {cp cp2 : String → ℚ} {allowed : List String}
    (htop : topOf eps cp allowed ≠ [])
    (hsub : subtractAndCheck eps
        (min need (((topOf eps cp allowed).length : ℚ) * minReserve cp (topOf eps cp allowed)) /
          ((topOf eps cp allowed).length : ℚ)) cp (topOf eps cp allowed) = some cp2) :
    min need (((topOf eps cp allowed).length : ℚ) * minReserve cp (topOf eps cp allowed)) =
      need := by
  have heps0 : 0 ≤ eps := eps_nonneg_of_top_ne_nil htop
  have hkpos : 0 < ((topOf eps cp allowed).length : ℚ) := by
    have : 0 < (topOf eps cp allowed).length := List.length_pos.mpr htop
    exact_mod_cast this
  by_contra hne
  have hlt : ((topOf eps cp allowed).length : ℚ) * minReserve cp (topOf eps cp allowed) < need := by
    rcases lt_or_ge (((topOf eps cp allowed).length : ℚ) *
        minReserve cp (topOf eps cp allowed)) need with h | h
    · exact h
    · exact absurd (min_eq_left h) hne
  have hte : min need (((topOf eps cp allowed).length : ℚ) *
      minReserve cp (topOf eps cp allowed)) / ((topOf eps cp allowed).length : ℚ) =
      minReserve cp (topOf eps cp allowed) := by
    rw [min_eq_right (le_of_lt hlt)]
    exact mul_div_cancel_left₀ _ (ne_of_gt hkpos)
  obtain ⟨g, hg, hgeq⟩ := minReserve_attained cp htop
  have hfirst := subtractAndCheck_first hsub g hg
  rw [hte, ← hgeq] at hfirst
  simp only [sub_self] at hfirst
  exact absurd hfirst (not_lt.mpr heps0)

/-- With at least one unit of fuel, the inner loop never runs out of fuel:
a successful subtraction means the whole remaining need was taken. -/
theorem innerGo_no_fuelOut (eps : ℚ) (allowed : List String) (fuel : Nat)
    (cp : String → ℚ) (need : ℚ) :
    innerGo eps allowed (fuel + 1) cp need ≠ .fuelOut := by
  intro h
  rw [innerGo_succ] at h
  by_cases hen : eps < need
  · rw [if_pos hen] at h
    by_cases hav : (availableOf eps cp allowed).isEmpty
    · rw [if_pos hav] at h; cases h
    · rw [if_neg hav] at h
      by_cases hk : (topOf eps cp allowed).length = 0
      · rw [if_pos hk] at h; cases h
      · rw [if_neg hk] at h
        have htop : topOf eps cp allowed ≠ [] := by
          intro hc; rw [hc] at hk; exact hk rfl
        have heps0 : 0 ≤ eps := eps_nonneg_of_top_ne_nil htop
        cases hsub : subtractAndCheck eps
            (min need (((topOf eps cp allowed).length : ℚ) *
                minReserve cp (topOf eps cp allowed)) /
              ((topOf eps cp allowed).length : ℚ)) cp (topOf eps cp allowed) with
        | none => rw [hsub] at h; dsimp only at h; cases h
        | some cp2 =>
          rw [hsub] at h
          rw [take_eq_need htop hsub, sub_self] at h
          dsimp only at h
          cases fuel with
          | zero =>
            rw [innerGo_zero, if_neg (not_lt.mpr heps0)] at h
            cases h
          | succ fuel' =>
            rw [innerGo_succ, if_neg (not_lt.mpr heps0)] at h
            cases h
  · rw [if_neg hen] at h; cases h

/-- The inner loop only changes reserves it leaves strictly above `eps`. -/
theorem innerGo_inv {eps : ℚ} {allowed : List String} :
    ∀ {fuel : Nat} {cp cp2 : String → ℚ} {need : ℚ},
      innerGo eps allowed fuel cp need = .done cp2 → ∀ s, eps < cp2 s ∨ cp2 s = cp s := by
  intro fuel
  induction fuel with
  | zero =>
    intro cp cp2 need h s
    rw [innerGo_zero] at h
    by_cases hen : eps < need
    · rw [if_pos hen] at h; cases h
    · rw [if_neg hen] at h
      cases h
      exact Or.inr rfl
  | succ fuel ih =>
    intro cp cp2 need h s
    rw [innerGo_succ] at h
    by_cases hen : eps < need
    · rw [if_pos hen] at h
      by_cases hav : (availableOf eps cp allowed).isEmpty
      · rw [if_pos hav] at h; cases h
      · rw [if_neg hav] at h
        by_cases hk : (topOf eps cp allowed).length = 0
        · rw [if_pos hk] at h; cases h
        · rw [if_neg hk] at h
          cases hsub : subtractAndCheck eps
              (min need (((topOf eps cp allowed).length : ℚ) *
                  minReserve cp (topOf eps cp allowed)) /
                ((topOf eps cp allowed).length : ℚ)) cp (topOf eps cp allowed) with
          | none => rw [hsub] at h; dsimp only at h; cases h
          | some cpm =>
            rw [hsub] at h
            dsimp only at h
            rcases ih h s with hlt | heq
            · exact Or.inl hlt
            · rcases subtractAndCheck_inv hsub s with hlt' | heq'
              · rw [heq]; exact Or.inl hlt'
              · rw [heq, heq']; exact Or.inr rfl
    · rw [if_neg hen] at h
      cases h
      exact Or.inr rfl

/-- If the inner loop exits normally while the eater was still hungry,
then `0 ≤ eps` (the failing `eps < 0` case can only exit through `fail`). -/
theorem innerGo_done_eps_nonneg {eps : ℚ} {allowed : List String} {fuel : Nat}
    {cp cp2 : String → ℚ} {need : ℚ} (hen : eps < need)
    (h : innerGo eps allowed (fuel + 1) cp need = .done cp2) : 0 ≤ eps := by
  rw [innerGo_succ, if_pos hen] at h
  by_cases hav : (availableOf eps cp allowed).isEmpty
  · rw [if_pos hav] at h; cases h
  · rw [if_neg hav] at h
    by_cases hk : (topOf eps cp allowed).length = 0
    · rw [if_pos hk] at h; cases h
    · exact eps_nonneg_of_top_ne_nil (by intro hc; rw [hc] at hk; exact hk rfl)

/-! ### Lemmas about the outer turn loop -/

theorem simGo_zero (spm : String → Species) (selected animals : List String) (eps : ℚ)
    (cp cn : String → ℚ) : simGo spm selected animals eps 0 cp cn = .fuelOut := rfl

theorem simGo_succ (spm : String → Species) (selected animals : List String) (eps : ℚ)
    (fuel : Nat) (cp cn : String → ℚ) :
    simGo spm selected animals eps (fuel + 1) cp cn =
      match pickEater cp (animals.filter fun a => eps < cn a) with
      | none => .pass cp
      | some eater =>
        if cn eater ≤ eps then
          simGo spm selected animals eps fuel cp (fun a => if a = eater then 0 else cn a)
        else
          if ((spm eater).foods.filter fun f => f ∈ selected).isEmpty then .fail
          else
            match innerGo eps ((spm eater).foods.filter fun f => f ∈ selected) 2 cp
                (cn eater) with
            | .fail => .fail
            | .fuelOut => .fuelOut
            | .done cp2 =>
              simGo spm selected animals eps fuel cp2
                (fun a => if a = eater then 0 else cn a) := rfl

theorem pickEater_ne_none {cpv : String → ℚ} {l : List String} (h : l ≠ []) :
    pickEater cpv l ≠ none := by
  cases l with
  | nil => exact absurd rfl h
  | cons x t => simp [pickEater]

theorem filter_length_mono {p q : String → Bool} (h : ∀ a, q a = true → p a = true) :
    ∀ l : List String, (l.filter q).length ≤ (l.filter p).length := by
  intro l
  induction l with
  | nil => simp
  | cons x t ih =>
    cases hq : q x with
    | true =>
      rw [List.filter_cons_of_pos hq, List.filter_cons_of_pos (h x hq)]
      simpa using ih
    | false =>
      rw [List.filter_cons_of_neg (by simp [hq])]
      cases hp : p x with
      | true =>
        rw [List.filter_cons_of_pos hp]
        exact le_trans ih (Nat.le_succ _)
      | false =>
        rw [List.filter_cons_of_neg (by simp [hp])]
        exact ih

theorem filter_length_lt {p q : String → Bool} (h : ∀ a, q a = true → p a = true)
    {e : String} (hpe : p e = true) (hqe : q e = false) :
    ∀ {l : List String}, e ∈ l → (l.filter q).length < (l.filter p).length := by
  intro l
  induction l with
  | nil => intro hc; simp at hc
  | cons x t ih =>
    intro hmem
    rcases List.mem_cons.mp hmem with hex | het
    · rw [← hex, List.filter_cons_of_pos hpe, List.filter_cons_of_neg (by simp [hqe])]
      exact Nat.lt_succ_of_le (filter_length_mono h t)
    · cases hq : q x with
      | true =>
        rw [List.filter_cons_of_pos hq, List.filter_cons_of_pos (h x hq)]
        simpa using ih het
      | false =>
        rw [List.filter_cons_of_neg (by simp [hq])]
        cases hp : p x with
        | true =>
          rw [List.filter_cons_of_pos hp]
          exact Nat.lt_succ_of_lt (ih het)
        | false =>
          rw [List.filter_cons_of_neg (by simp [hp])]
          exact ih het

/-- The updated hunger map after a turn keeps only previously hungry animals
other than the satisfied eater, so the hungry count strictly drops. -/
theorem hungry_length_lt {eps : ℚ} {cn : String → ℚ} {animals : List String} {eater : String}
    (heps0 : 0 ≤ eps) (hmem : eater ∈ animals) (hhun : eps < cn eater) :
    (animals.filter fun a => eps < (fun a => if a = eater then 0 else cn a) a).length <
      (animals.filter fun a => eps < cn a).length := by
  apply filter_length_lt (e := eater)
  · intro a hq
    by_cases hae : a = eater
    · exfalso
      rw [hae] at hq
      simp only [if_pos rfl, decide_eq_true_eq] at hq
      exact absurd hq (not_lt.mpr heps0)
    · simpa [hae] using hq
  · simpa using hhun
  · simpa using not_lt.mpr heps0
  · exact hmem

/-- With fuel exceeding the number of hungry animals, the outer loop never
runs out of fuel. -/
theorem simGo_no_fuelOut {spm : String → Species} {selected animals : List String} {eps : ℚ} :
    ∀ {fuel : Nat} {cp cn : String → ℚ},
      (animals.filter fun a => eps < cn a).length < fuel →
      simGo spm selected animals eps fuel cp cn ≠ .fuelOut := by
  intro fuel
  induction fuel with
  | zero => intro cp cn hlen; exact absurd hlen (Nat.not_lt_zero _)
  | succ fuel ih =>
    intro cp cn hlen h
    rw [simGo_succ] at h
    cases hpe : pickEater cp (animals.filter fun a => eps < cn a) with
    | none => rw [hpe] at h; cases h
    | some eater =>
      rw [hpe] at h
      dsimp only at h
      have hmem := List.mem_filter.mp (pickEater_mem hpe)
      have hhun : eps < cn eater := by simpa using hmem.2
      rw [if_neg (not_le.mpr hhun)] at h
      by_cases hal : ((spm eater).foods.filter fun f => f ∈ selected).isEmpty
      · rw [if_pos hal] at h; cases h
      · rw [if_neg hal] at h
        cases hin : innerGo eps ((spm eater).foods.filter fun f => f ∈ selected) 2 cp
            (cn eater) with
        | fail => rw [hin] at h; cases h
        | fuelOut => exact innerGo_no_fuelOut eps _ 1 cp (cn eater) hin
        | done cp2 =>
          rw [hin] at h
          dsimp only at h
          have heps0 : 0 ≤ eps := innerGo_done_eps_nonneg hhun hin
          have hlt := hungry_length_lt heps0 hmem.1 hhun
          exact ih (Nat.lt_of_lt_of_le hlt (Nat.lt_succ_iff.mp hlen)) h

/-- Whenever the outer loop passes, every reserve is above `eps` or untouched. -/
theorem simGo_pass_inv {spm : String → Species} {selected animals : List String} {eps : ℚ} :
    ∀ {fuel : Nat} {cp cn cpF : String → ℚ},
      simGo spm selected animals eps fuel cp cn = .pass cpF →
      ∀ s, eps < cpF s ∨ cpF s = cp s := by
  intro fuel
  induction fuel with
  | zero => intro cp cn cpF h; cases h
  | succ fuel ih =>
    intro cp cn cpF h s
    rw [simGo_succ] at h
    cases hpe : pickEater cp (animals.filter fun a => eps < cn a) with
    | none =>
      rw [hpe] at h
      cases h
      exact Or.inr rfl
    | some eater =>
      rw [hpe] at h
      dsimp only at h
      by_cases hle : cn eater ≤ eps
      · rw [if_pos hle] at h
        exact ih h s
      · rw [if_neg hle] at h
        by_cases hal : ((spm eater).foods.filter fun f => f ∈ selected).isEmpty
        · rw [if_pos hal] at h; cases h
        · rw [if_neg hal] at h
          cases hin : innerGo eps ((spm eater).foods.filter fun f => f ∈ selected) 2 cp
              (cn eater) with
          | fail => rw [hin] at h; cases h
          | fuelOut => rw [hin] at h; cases h
          | done cp2 =>
            rw [hin] at h
            dsimp only at h
            rcases ih h s with hlt | heq
            · exact Or.inl hlt
            · rcases innerGo_inv hin s with hlt' | heq'
              · rw [heq]; exact Or.inl hlt'
              · rw [heq, heq']; exact Or.inr rfl

/-- An animal in the set with a positive need and no allowed foods can never
be satisfied, so the outer loop never returns pass. -/
theorem simGo_starving_no_pass {spm : String → Species} {selected animals : List String}
    {eps : ℚ} {a : String} (ha : a ∈ animals)
    (hfoods : (spm a).foods.filter (fun f => f ∈ selected) = []) :
    ∀ (fuel : Nat) (cp cn : String → ℚ), eps < cn a →
      passed (simGo spm selected animals eps fuel cp cn) = false := by
  intro fuel
  induction fuel with
  | zero => intro cp cn _; rfl
  | succ fuel ih =>
    intro cp cn hcn
    rw [simGo_succ]
    have hhun : a ∈ animals.filter fun a => eps < cn a :=
      List.mem_filter.mpr ⟨ha, by simpa using hcn⟩
    cases hpe : pickEater cp (animals.filter fun a => eps < cn a) with
    | none =>
      exact absurd hpe (pickEater_ne_none (List.ne_nil_of_mem hhun))
    | some eater =>
      dsimp only
      by_cases hle : cn eater ≤ eps
      · rw [if_pos hle]
        have hane : a ≠ eater := by
          intro hc
          rw [← hc] at hle
          exact absurd hcn (not_lt.mpr hle)
        exact ih _ _ (by simpa [hane] using hcn)
      · rw [if_neg hle]
        by_cases hae : eater = a
        · rw [if_pos (by rw [hae, hfoods]; rfl)]
          rfl
        · by_cases hal : ((spm eater).foods.filter fun f => f ∈ selected).isEmpty
          · rw [if_pos hal]; rfl
          · rw [if_neg hal]
            cases hin : innerGo eps ((spm eater).foods.filter fun f => f ∈ selected) 2 cp
                (cn eater) with
            | fail => rfl
            | fuelOut => rfl
            | done cp2 =>
              dsimp only
              have hane : a ≠ eater := fun hc => hae hc.symm
              exact ih _ _ (by simpa [hane] using hcn)

/-! ### Lemmas about the state-trace instrumentation -/

theorem subtractAndCheckT_cons (eps te : ℚ) (cp : String → ℚ) (f : String)
    (rest : List String) :
    subtractAndCheckT eps te cp (f :: rest) =
      if cp f - te < -eps then ([fun s => if s = f then cp s - te else cp s], none)
      else if cp f - te ≤ eps then ([fun s => if s = f then cp s - te else cp s], none)
      else
        ((fun s => if s = f then cp s - te else cp s) ::
            (subtractAndCheckT eps te (fun s => if s = f then cp s - te else cp s) rest).1,
          (subtractAndCheckT eps te (fun s => if s = f then cp s - te else cp s) rest).2) :=
  rfl

/-- The instrumented subtraction loop computes the same result. -/
theorem subtractAndCheckT_res (eps te : ℚ) :
    ∀ (l : List String) (cp : String → ℚ),
      (subtractAndCheckT eps te cp l).2 = subtractAndCheck eps te cp l := by
  intro l
  induction l with
  | nil => intro cp; rfl
  | cons f rest ih =>
    intro cp
    rw [subtractAndCheckT_cons, subtractAndCheck_cons]
    by_cases h1 : cp f - te < -eps
    · rw [if_pos h1, if_pos h1]
    · rw [if_neg h1, if_neg h1]
      by_cases h2 : cp f - te ≤ eps
      · rw [if_pos h2, if_pos h2]
      · rw [if_neg h2, if_neg h2]
        exact ih _

/-- On a successful subtraction, every recorded intermediate state keeps each
reserve strictly above `eps` or untouched. -/
theorem subtractAndCheckT_states {eps te : ℚ} :
    ∀ {l : List String} {cp cp2 : String → ℚ},
      (subtractAndCheckT eps te cp l).2 = some cp2 →
      ∀ st ∈ (subtractAndCheckT eps te cp l).1, ∀ s, eps < st s ∨ st s = cp s := by
  intro l
  induction l with
  | nil => intro cp cp2 _ st hst; simp [subtractAndCheckT] at hst
  | cons f rest ih =>
    intro cp cp2 h st hst
    rw [subtractAndCheckT_cons] at h hst
    by_cases h1 : cp f - te < -eps
    · rw [if_pos h1] at h; cases h
    · rw [if_neg h1] at h hst
      by_cases h2 : cp f - te ≤ eps
      · rw [if_pos h2] at h; cases h
      · rw [if_neg h2] at h hst
        have hupd : ∀ s, eps <
            (fun s => if s = f then cp s - te else cp s) s ∨
            (fun s => if s = f then cp s - te else cp s) s = cp s := by
          intro s
          by_cases hsf : s = f
          · refine Or.inl ?_
            simp only [if_pos hsf, hsf]
            exact lt_of_not_le h2
          · exact Or.inr (by simp only [if_neg hsf])
        rcases List.mem_cons.mp hst with hst | hst
        · intro s; rw [hst]; exact hupd s
        · intro s
          rcases ih h st hst s with hlt | heq
          · exact Or.inl hlt
          · rw [heq]; exact hupd s

theorem innerGoT_succ (eps : ℚ) (allowed : List String) (fuel : Nat) (cp : String → ℚ)
    (need : ℚ) :
    innerGoT eps allowed (fuel + 1) cp need =
      if eps < need then
        if (availableOf eps cp allowed).isEmpty then ([], .fail)
        else if (topOf eps cp allowed).length = 0 then ([], .fail)
        else
          match (subtractAndCheckT eps
              (min need (((topOf eps cp allowed).length : ℚ) *
                  minReserve cp (topOf eps cp allowed)) /
                ((topOf eps cp allowed).length : ℚ)) cp (topOf eps cp allowed)).2 with
          | none =>
            ((subtractAndCheckT eps
                (min need (((topOf eps cp allowed).length : ℚ) *
                    minReserve cp (topOf eps cp allowed)) /
                  ((topOf eps cp allowed).length : ℚ)) cp (topOf eps cp allowed)).1, .fail)
          | some cp2 =>
            ((subtractAndCheckT eps
                (min need (((topOf eps cp allowed).length : ℚ) *
                    minReserve cp (topOf eps cp allowed)) /
                  ((topOf eps cp allowed).length : ℚ)) cp (topOf eps cp allowed)).1 ++
              (innerGoT eps allowed fuel cp2
                (need - min need (((topOf eps cp allowed).length : ℚ) *
                  minReserve cp (topOf eps cp allowed)))).1,
              (innerGoT eps allowed fuel cp2
                (need - min need (((topOf eps cp allowed).length : ℚ) *
                  minReserve cp (topOf eps cp allowed)))).2)
      else ([], .done cp) := rfl

/-- The instrumented inner loop computes the same result. -/
theorem innerGoT_res (eps : ℚ) (allowed : List String) :
    ∀ (fuel : Nat) (cp : String → ℚ) (need : ℚ),
      (innerGoT eps allowed fuel cp need).2 = innerGo eps allowed fuel cp need := by
  intro fuel
  induction fuel with
  | zero =>
    intro cp need
    by_cases hen : eps < need <;> simp [innerGoT, innerGo_zero, hen]
  | succ fuel ih =>
    intro cp need
    rw [innerGoT_succ, innerGo_succ]
    by_cases hen : eps < need
    · rw [if_pos hen, if_pos hen]
      by_cases hav : (availableOf eps cp allowed).isEmpty
      · rw [if_pos hav, if_pos hav]
      · rw [if_neg hav, if_neg hav]
        by_cases hk : (topOf eps cp allowed).length = 0
        · rw [if_pos hk, if_pos hk]
        · rw [if_neg hk, if_neg hk,
            ← subtractAndCheckT_res eps _ (topOf eps cp allowed) cp]
          cases (subtractAndCheckT eps
              (min need (((topOf eps cp allowed).length : ℚ) *
                  minReserve cp (topOf eps cp allowed)) /
                ((topOf eps cp allowed).length : ℚ)) cp (topOf eps cp allowed)).2 with
          | none => rfl
          | some cp2 =>
            dsimp only
            exact ih cp2 _
    · rw [if_neg hen, if_neg hen]

/-- On a normal inner-loop exit, every recorded state keeps each reserve
strictly above `eps` or untouched. -/
theorem innerGoT_states {eps : ℚ} {allowed : List String} :
    ∀ {fuel : Nat} {cp cp2 : String → ℚ} {need : ℚ},
      (innerGoT eps allowed fuel cp need).2 = .done cp2 →
      ∀ st ∈ (innerGoT eps allowed fuel cp need).1, ∀ s, eps < st s ∨ st s = cp s := by
  intro fuel
  induction fuel with
  | zero =>
    intro cp cp2 need _ st hst
    simp [innerGoT] at hst
  | succ fuel ih =>
    intro cp cp2 need h st hst
    rw [innerGoT_succ] at h hst
    by_cases hen : eps < need
    · rw [if_pos hen] at h hst
      by_cases hav : (availableOf eps cp allowed).isEmpty
      · rw [if_pos hav] at hst; simp at hst
      · rw [if_neg hav] at h hst
        by_cases hk : (topOf eps cp allowed).length = 0
        · rw [if_pos hk] at hst; simp at hst
        · rw [if_neg hk] at h hst
          cases hsub : (subtractAndCheckT eps
              (min need (((topOf eps cp allowed).length : ℚ) *
                  minReserve cp (topOf eps cp allowed)) /
                ((topOf eps cp allowed).length : ℚ)) cp (topOf eps cp allowed)).2 with
          | none => rw [hsub] at h; cases h
          | some cpm =>
            rw [hsub] at h hst
            dsimp only at h hst
            have hmid : ∀ s, eps < cpm s ∨ cpm s = cp s := by
              have hsub' : subtractAndCheck eps
                  (min need (((topOf eps cp allowed).length : ℚ) *
                      minReserve cp (topOf eps cp allowed)) /
                    ((topOf eps cp allowed).length : ℚ)) cp (topOf eps cp allowed) =
                  some cpm := by
                rw [← subtractAndCheckT_res]; exact hsub
              exact subtractAndCheck_inv hsub'
            rcases List.mem_append.mp hst with hst | hst
            · exact subtractAndCheckT_states hsub st hst
            · intro s
              rcases ih h st hst s with hlt | heq
              · exact Or.inl hlt
              · rw [heq]; exact hmid s
    · rw [if_neg hen] at hst
      simp at hst

theorem simGoT_succ (spm : String → Species) (selected animals : List String) (eps : ℚ)
    (fuel : Nat) (cp cn : String → ℚ) :
    simGoT spm selected animals eps (fuel + 1) cp cn =
      match pickEater cp (animals.filter fun a => eps < cn a) with
      | none => ([], .pass cp)
      | some eater =>
        if cn eater ≤ eps then
          simGoT spm selected animals eps fuel cp (fun a => if a = eater then 0 else cn a)
        else
          if ((spm eater).foods.filter fun f => f ∈ selected).isEmpty then ([], .fail)
          else
            match (innerGoT eps ((spm eater).foods.filter fun f => f ∈ selected) 2 cp
                (cn eater)).2 with
            | .fail =>
              ((innerGoT eps ((spm eater).foods.filter fun f => f ∈ selected) 2 cp
                  (cn eater)).1, .fail)
            | .fuelOut =>
              ((innerGoT eps ((spm eater).foods.filter fun f => f ∈ selected) 2 cp
                  (cn eater)).1, .fuelOut)
            | .done cp2 =>
              ((innerGoT eps ((spm eater).foods.filter fun f => f ∈ selected) 2 cp
                  (cn eater)).1 ++
                (simGoT spm selected animals eps fuel cp2
                  (fun a => if a = eater then 0 else cn a)).1,
                (simGoT spm selected animals eps fuel cp2
                  (fun a => if a = eater then 0 else cn a)).2) := rfl

/-- The instrumented outer loop computes the same result. -/
theorem simGoT_res (spm : String → Species) (selected animals : List String) (eps : ℚ) :
    ∀ (fuel : Nat) (cp cn : String → ℚ),
      (simGoT spm selected animals eps fuel cp cn).2 =
        simGo spm selected animals eps fuel cp cn := by
  intro fuel
  induction fuel with
  | zero => intro cp cn; rfl
  | succ fuel ih =>
    intro cp cn
    rw [simGoT_succ, simGo_succ]
    cases pickEater cp (animals.filter fun a => eps < cn a) with
    | none => rfl
    | some eater =>
      dsimp only
      by_cases hle : cn eater ≤ eps
      · rw [if_pos hle, if_pos hle]
        exact ih cp _
      · rw [if_neg hle, if_neg hle]
        by_cases hal : ((spm eater).foods.filter fun f => f ∈ selected).isEmpty
        · rw [if_pos hal, if_pos hal]
        · rw [if_neg hal, if_neg hal,
            ← innerGoT_res eps ((spm eater).foods.filter fun f => f ∈ selected) 2 cp
              (cn eater)]
          cases (innerGoT eps ((spm eater).foods.filter fun f => f ∈ selected) 2 cp
              (cn eater)).2 with
          | fail => rfl
          | fuelOut => rfl
          | done cp2 =>
            dsimp only
            exact ih cp2 _

/-- On a passing run, every recorded state keeps each reserve strictly above
`eps` or untouched relative to the state the run started from. -/
theorem simGoT_states {spm : String → Species} {selected animals : List String} {eps : ℚ} :
    ∀ {fuel : Nat} {cp cn cpF : String → ℚ},
      (simGoT spm selected animals eps fuel cp cn).2 = .pass cpF →
      ∀ st ∈ (simGoT spm selected animals eps fuel cp cn).1, ∀ s,
        eps < st s ∨ st s = cp s := by
  intro fuel
  induction fuel with
  | zero =>
    intro cp cn cpF _ st hst
    simp [simGoT] at hst
  | succ fuel ih =>
    intro cp cn cpF h st hst
    rw [simGoT_succ] at h hst
    cases hpe : pickEater cp (animals.filter fun a => eps < cn a) with
    | none => rw [hpe] at hst; simp at hst
    | some eater =>
      rw [hpe] at h hst
      dsimp only at h hst
      by_cases hle : cn eater ≤ eps
      · rw [if_pos hle] at h hst
        exact ih h st hst
      · rw [if_neg hle] at h hst
        by_cases hal : ((spm eater).foods.filter fun f => f ∈ selected).isEmpty
        · rw [if_pos hal] at hst; simp at hst
        · rw [if_neg hal] at h hst
          cases hin : (innerGoT eps ((spm eater).foods.filter fun f => f ∈ selected) 2 cp
              (cn eater)).2 with
          | fail => rw [hin] at h; cases h
          | fuelOut => rw [hin] at h; cases h
          | done cp2 =>
            rw [hin] at h hst
            dsimp only at h hst
            have hmid : ∀ s, eps < cp2 s ∨ cp2 s = cp s := by
              have hin' : innerGo eps ((spm eater).foods.filter fun f => f ∈ selected) 2 cp
                  (cn eater) = .done cp2 := by
                rw [← innerGoT_res]; exact hin
              exact innerGo_inv hin'
            rcases List.mem_append.mp hst with hst | hst
            · exact innerGoT_states hin st hst
            · intro s
              rcases ih h st hst s with hlt | heq
              · exact Or.inl hlt
              · rw [heq]; exact hmid s

/-! ### Lemmas about the subset enumerator -/

theorem combinations_length {α : Type} :
    ∀ (l : List α) (k : Nat), (combinations k l).length = Nat.choose l.length k := by
  intro l
  induction l with
  | nil =>
    intro k
    cases k with
    | zero => rfl
    | succ k => rfl
  | cons x xs ih =>
    intro k
    cases k with
    | zero => rfl
    | succ k =>
      show ((combinations k xs).map (x :: ·) ++ combinations (k + 1) xs).length = _
      rw [List.length_append, List.length_map, ih k, ih (k + 1), List.length_cons,
        Nat.choose_succ_succ]

theorem enumGo_nil (spm : String → Species) (producers : List String) (cap : Option Nat)
    (eps : ℚ) (found : Nat) : enumGo spm producers cap eps [] found = ([], 0) := rfl

theorem enumGo_cons (spm : String → Species) (producers : List String) (cap : Option Nat)
    (eps : ℚ) (c : List String) (rest : List (List String)) (found : Nat) :
    enumGo spm producers cap eps (c :: rest) found =
      if simulate_set spm producers c eps then
        if capReached cap (found + 1) then ([mkRow producers c], 1)
        else
          let r := enumGo spm producers cap eps rest (found + 1)
          (mkRow producers c :: r.1, r.2 + 1)
      else
        let r := enumGo spm producers cap eps rest found
        (r.1, r.2 + 1) := rfl

/-- Uncapped enumeration: one row per passing combination, every combination
passed to the simulator. -/
theorem enumGo_none_spec (spm : String → Species) (producers : List String) (eps : ℚ) :
    ∀ (combos : List (List String)) (found : Nat),
      enumGo spm producers none eps combos found =
        (((combos.filter fun c => simulate_set spm producers c eps).map (mkRow producers)),
          combos.length) := by
  intro combos
  induction combos with
  | nil => intro found; rfl
  | cons c rest ih =>
    intro found
    rw [enumGo_cons]
    by_cases hsim : simulate_set spm producers c eps
    · rw [if_pos hsim]
      have hcap : capReached none (found + 1) = false := rfl
      rw [hcap, if_neg (by simp)]
      dsimp only
      rw [ih (found + 1), List.filter_cons_of_pos (by simpa using hsim), List.map_cons,
        List.length_cons]
    · rw [if_neg hsim]
      dsimp only
      rw [ih found, List.filter_cons_of_neg (by simpa using hsim), List.length_cons]

/-- Capped enumeration rows: exactly the first `n - found` passing rows. -/
theorem enumGo_cap_rows (spm : String → Species) (producers : List String) (eps : ℚ) (n : Nat) :
    ∀ (combos : List (List String)) (found : Nat), found < n →
      (enumGo spm producers (some n) eps combos found).1 =
        (((combos.filter fun c => simulate_set spm producers c eps).map
          (mkRow producers))).take (n - found) := by
  intro combos
  induction combos with
  | nil => intro found _; simp [enumGo_nil]
  | cons c rest ih =>
    intro found hfn
    rw [enumGo_cons]
    by_cases hsim : simulate_set spm producers c eps
    · rw [if_pos hsim, List.filter_cons_of_pos (by simpa using hsim), List.map_cons]
      by_cases hstop : n ≤ found + 1
      · have hcap : capReached (some n) (found + 1) = true := by
          simp [capReached, hstop]
        rw [hcap]
        have h1 : n - found = 1 := by omega
        rw [if_pos rfl]
        dsimp only
        rw [h1, List.take_succ_cons, List.take_zero]
      · have hcap : capReached (some n) (found + 1) = false := by
          simp [capReached, hstop]
        rw [hcap]
        rw [if_neg (by simp)]
        dsimp only
        rw [ih (found + 1) (by omega)]
        have h2 : n - found = (n - (found + 1)) + 1 := by omega
        rw [h2, List.take_succ_cons]
    · rw [if_neg hsim, List.filter_cons_of_neg (by simpa using hsim)]
      dsimp only
      exact ih found hfn

/-- Capped enumeration inspects exactly the combinations up to the `n`-th pass. -/
theorem enumGo_cap_tested (spm : String → Species) (producers : List String) (eps : ℚ)
    (n : Nat) :
    ∀ (combos : List (List String)) (found : Nat), found < n →
      (enumGo spm producers (some n) eps combos found).2 =
        testedUntil spm producers eps (n - found) combos := by
  intro combos
  induction combos with
  | nil => intro found _; rfl
  | cons c rest ih =>
    intro found hfn
    rw [enumGo_cons]
    by_cases hsim : simulate_set spm producers c eps
    · rw [if_pos hsim]
      show _ = if simulate_set spm producers c eps then _ else _
      rw [if_pos hsim]
      by_cases hstop : n ≤ found + 1
      · have hcap : capReached (some n) (found + 1) = true := by
          simp [capReached, hstop]
        rw [hcap, if_pos rfl, if_pos (by omega : n - found ≤ 1)]
      · have hcap : capReached (some n) (found + 1) = false := by
          simp [capReached, hstop]
        rw [hcap, if_neg (by simp), if_neg (by omega : ¬ n - found ≤ 1)]
        dsimp only
        rw [ih (found + 1) (by omega)]
        have h2 : n - found - 1 = n - (found + 1) := by omega
        rw [h2, Nat.add_comm]
    · rw [if_neg hsim]
      show _ = if simulate_set spm producers c eps then _ else _
      rw [if_neg hsim]
      dsimp only
      rw [ih found hfn, Nat.add_comm]

theorem testedUntil_le (spm : String → Species) (producers : List String) (eps : ℚ) :
    ∀ (combos : List (List String)) (n : Nat),
      testedUntil spm producers eps n combos ≤ combos.length := by
  intro combos
  induction combos with
  | nil => intro n; exact Nat.le_refl 0
  | cons c rest ih =>
    intro n
    show (if simulate_set spm producers c eps then _ else _) ≤ rest.length + 1
    by_cases hsim : simulate_set spm producers c eps
    · rw [if_pos hsim]
      by_cases hn : n ≤ 1
      · rw [if_pos hn]; omega
      · rw [if_neg hn]
        have := ih (n - 1)
        omega
    · rw [if_neg hsim]
      have := ih n
      omega

/-! ### Claim theorems -/

/-- Claim C1, counterexample: `simulate_set` can pass while a selected species
(a producer with initial reserve 0 that is never eaten) has a final reserve of
0, which is not strictly greater than `eps`.  The claim as stated is false. -/
theorem c1_counterexample :
    simulate_set (fun _ => ⟨"P", "Producer", 0, 0, []⟩) ["P"] [] defaultEps = true ∧
    finalReserve (simRun (fun _ => ⟨"P", "Producer", 0, 0, []⟩) ["P"] [] defaultEps) "P" =
      some 0 ∧
    ¬ defaultEps < (0 : ℚ) := by
  refine ⟨by decide, by decide, by decide⟩

/-- Claim C1 (amended): whenever `simulate_set` passes, the final reserve of
every species is strictly greater than `eps` or exactly equal to its initial
reserve (species never drawn from keep their initial reserve, which may be
`≤ eps`); the same disjunction holds at every point during the simulation —
after each single subtraction — so with non-negative initial reserves, as the
data model requires, and `0 ≤ eps`, no reserve ever goes below `-eps` at any
point. -/
theorem c1_reserve_invariant (spm : String → Species) (producers animals : List String)
    (eps : ℚ) (cpF : String → ℚ) (h : simRun spm producers animals eps = .pass cpF) :
    (∀ s, eps < cpF s ∨ cpF s = initCp spm producers animals s) ∧
    (∀ cp ∈ simRunTrace spm producers animals eps, ∀ s,
      eps < cp s ∨ cp s = initCp spm producers animals s) ∧
    (0 ≤ eps → (∀ s, 0 ≤ (spm s).cp0) →
      ∀ cp ∈ simRunTrace spm producers animals eps, ∀ s, -eps ≤ cp s) := by
  have h2 : (simGoT spm (producers ++ animals) animals eps (animals.length + 1)
      (initCp spm producers animals) (initCn spm)).2 = .pass cpF := by
    rw [simGoT_res]; exact h
  have htr : ∀ cp ∈ simRunTrace spm producers animals eps, ∀ s,
      eps < cp s ∨ cp s = initCp spm producers animals s := by
    intro cp hcp s
    rcases List.mem_cons.mp hcp with hcp | hcp
    · rw [hcp]; exact Or.inr rfl
    · exact simGoT_states h2 cp hcp s
  refine ⟨simGo_pass_inv h, htr, ?_⟩
  intro heps hcp0 cp hcp s
  rcases htr cp hcp s with hlt | heq
  · linarith
  · rw [heq]
    unfold initCp
    by_cases hs : s ∈ producers ++ animals
    · rw [if_pos hs]
      have := hcp0 s
      linarith
    · rw [if_neg hs]
      linarith

/-- Witness for `c1_reserve_invariant` at a concrete passing run, instantiating
the final-state disjunction, the any-point disjunction at the initial trace
state, and the never-below-`-eps` corollary. -/
theorem c1_reserve_invariant_witness :
    simRun (fun _ => ⟨"Q", "Producer", 5, 0, []⟩) ["Q"] [] defaultEps =
      .pass (initCp (fun _ => ⟨"Q", "Producer", 5, 0, []⟩) ["Q"] []) ∧
    (defaultEps < initCp (fun _ => ⟨"Q", "Producer", 5, 0, []⟩) ["Q"] [] "Q" ∨
      initCp (fun _ => ⟨"Q", "Producer", 5, 0, []⟩) ["Q"] [] "Q" =
        initCp (fun _ => ⟨"Q", "Producer", 5, 0, []⟩) ["Q"] [] "Q") ∧
    (defaultEps < initCp (fun _ => ⟨"Q", "Producer", 5, 0, []⟩) ["Q"] [] "Z" ∨
      initCp (fun _ => ⟨"Q", "Producer", 5, 0, []⟩) ["Q"] [] "Z" =
        initCp (fun _ => ⟨"Q", "Producer", 5, 0, []⟩) ["Q"] [] "Z") ∧
    -defaultEps ≤ initCp (fun _ => ⟨"Q", "Producer", 5, 0, []⟩) ["Q"] [] "Q" :=
  have hq := c1_reserve_invariant (fun _ => ⟨"Q", "Producer", 5, 0, []⟩) ["Q"] [] defaultEps
    (initCp (fun _ => ⟨"Q", "Producer", 5, 0, []⟩) ["Q"] []) rfl
  ⟨rfl, hq.1 "Q",
    hq.2.1 (initCp (fun _ => ⟨"Q", "Producer", 5, 0, []⟩) ["Q"] [])
      (List.mem_cons_self _ _) "Z",
    hq.2.2 (by decide) (fun _ => by show (0 : ℚ) ≤ 5; decide)
      (initCp (fun _ => ⟨"Q", "Producer", 5, 0, []⟩) ["Q"] [])
      (List.mem_cons_self _ _) "Q"⟩

/-- Claim C2, counterexample: with two hungry animals "A" and "B" of equal
current reserve, line 91 picks "B", the lexicographically larger name —
not the smaller one the claim states ("A" is smaller, as the second
conjunct certifies). -/
theorem c2_counterexample :
    pickEater (fun _ => (1 : ℚ)) ["A", "B"] = some "B" ∧ strLt "A" "B" = true := by
  refine ⟨by decide, by decide⟩

/-- Claim C2 (amended): each turn's eater is the hungry animal whose key
`(current reserve, name)` is strictly greater than every other hungry
animal's key; on reserve ties the lexicographically LARGEST name wins. -/
theorem c2_eater_choice (cpv : String → ℚ) (hungry : List String) (a : String)
    (hmem : a ∈ hungry) (hmax : ∀ b ∈ hungry, b ≠ a → keyLt cpv b a) :
    pickEater cpv hungry = some a :=
  pickEater_max hmem hmax

/-- Witness for `c2_eater_choice`: equal reserves, "AB" beats "AA". -/
theorem c2_eater_choice_witness : pickEater (fun _ => (2 : ℚ)) ["AA", "AB"] = some "AB" :=
  c2_eater_choice (fun _ => (2 : ℚ)) ["AA", "AB"] "AB" (by decide) (by decide)

/-- Claim C3: if the subtraction loop returns normally then every top-set
member's reserve stays strictly above `eps` (equivalently, driving any member
to `≤ eps` fails immediately); and the concrete scenario — producers P1,P2,P3
at 100, A1 needing exactly 100 from P1, other animals needing 0 — fails. -/
theorem c3_exact_depletion_fails :
    (∀ (eps te : ℚ) (cp : String → ℚ) (top : List String) (cp2 : String → ℚ),
        subtractAndCheck eps te cp top = some cp2 → ∀ f ∈ top, eps < cp2 f) ∧
    simulate_set
      (fun s => if s = "A1" then ⟨"A1", "Animal", 0, 100, ["P1"]⟩
        else if s = "P1" ∨ s = "P2" ∨ s = "P3" then ⟨s, "Producer", 100, 0, []⟩
        else ⟨s, "Animal", 0, 0, []⟩)
      ["P1", "P2", "P3"] ["A1", "A2", "A3", "A4", "A5"] defaultEps = false :=
  ⟨fun _ _ _ _ _ h => subtractAndCheck_final_gt h, by decide⟩

/-- Witness for the quantified half of `c3_exact_depletion_fails`. -/
theorem c3_exact_depletion_fails_witness :
    defaultEps <
      (fun s => if s = "X" then (fun _ : String => (5 : ℚ)) s - 1
        else (fun _ : String => (5 : ℚ)) s) "X" :=
  c3_exact_depletion_fails.1 defaultEps 1 (fun _ => (5 : ℚ)) ["X"]
    (fun s => if s = "X" then (fun _ : String => (5 : ℚ)) s - 1
      else (fun _ : String => (5 : ℚ)) s)
    rfl "X" (by decide)

/-- Claim C4: a chosen eater whose food list, restricted to the selected set,
is empty makes the turn return fail immediately; consequently any animal set
containing an animal with positive need and no allowed foods is rejected. -/
theorem c4_empty_allowed_foods :
    (∀ (spm : String → Species) (selected animals : List String) (eps : ℚ) (fuel : Nat)
        (cp cn : String → ℚ) (eater : String),
        pickEater cp (animals.filter fun a => eps < cn a) = some eater →
        ¬ cn eater ≤ eps →
        ((spm eater).foods.filter fun f => f ∈ selected) = [] →
        simGo spm selected animals eps (fuel + 1) cp cn = .fail) ∧
    (∀ (spm : String → Species) (producers animals : List String) (eps : ℚ) (a : String),
        a ∈ animals → eps < (spm a).cn0 →
        ((spm a).foods.filter fun f => f ∈ producers ++ animals) = [] →
        simulate_set spm producers animals eps = false) := by
  constructor
  · intro spm selected animals eps fuel cp cn eater hpe hne hfoods
    rw [simGo_succ, hpe]
    dsimp only
    rw [if_neg hne]
    have hemp : ((spm eater).foods.filter fun f => f ∈ selected).isEmpty = true := by
      rw [hfoods]; rfl
    rw [if_pos hemp]
  · intro spm producers animals eps a ha hcn hfoods
    exact simGo_starving_no_pass ha hfoods (animals.length + 1)
      (initCp spm producers animals) (initCn spm) hcn

/-- Witness for `c4_empty_allowed_foods`: an animal whose only listed food is
outside the selected set makes the whole set fail. -/
theorem c4_empty_allowed_foods_witness :
    simulate_set
      (fun s => if s = "A" then ⟨"A", "Animal", 1, 5, ["Z"]⟩ else ⟨s, "Producer", 100, 0, []⟩)
      ["P"] ["A"] defaultEps = false :=
  c4_empty_allowed_foods.2
    (fun s => if s = "A" then ⟨"A", "Animal", 1, 5, ["Z"]⟩ else ⟨s, "Producer", 100, 0, []⟩)
    ["P"] ["A"] defaultEps "A" (by decide) (by decide) (by decide)

/-- Claim C5: in a feeding micro-step the top set is exactly the available
allowed foods within `eps` of the maximum available reserve; when the
subtraction succeeds, each top-set member loses `take/|top|` where
`take = min(need, |top| * minTopCP)`, and the eater's remaining need drops
by `take`. -/
theorem c5_micro_step (eps : ℚ) (cp : String → ℚ) (allowed : List String) (fuel : Nat)
    (need : ℚ) (hen : eps < need) (htop : topOf eps cp allowed ≠ [])
    (hnd : (topOf eps cp allowed).Nodup)
    (hok : ∀ f ∈ topOf eps cp allowed,
      eps < cp f -
        min need (((topOf eps cp allowed).length : ℚ) * minReserve cp (topOf eps cp allowed)) /
          ((topOf eps cp allowed).length : ℚ)) :
    topOf eps cp allowed = (availableOf eps cp allowed).filter
      (fun f => |cp f - maxReserve cp (availableOf eps cp allowed)| ≤ eps) ∧
    subtractAndCheck eps
        (min need (((topOf eps cp allowed).length : ℚ) * minReserve cp (topOf eps cp allowed)) /
          ((topOf eps cp allowed).length : ℚ)) cp (topOf eps cp allowed) =
      some (fun s => if s ∈ topOf eps cp allowed then
        cp s -
          min need (((topOf eps cp allowed).length : ℚ) * minReserve cp (topOf eps cp allowed)) /
            ((topOf eps cp allowed).length : ℚ)
        else cp s) ∧
    innerGo eps allowed (fuel + 1) cp need =
      innerGo eps allowed fuel
        (fun s => if s ∈ topOf eps cp allowed then
          cp s -
            min need (((topOf eps cp allowed).length : ℚ) *
              minReserve cp (topOf eps cp allowed)) /
              ((topOf eps cp allowed).length : ℚ)
          else cp s)
        (need - min need (((topOf eps cp allowed).length : ℚ) *
          minReserve cp (topOf eps cp allowed))) := by
  have heps0 : 0 ≤ eps := eps_nonneg_of_top_ne_nil htop
  have hsub := subtractAndCheck_batch heps0 hnd hok
  refine ⟨rfl, hsub, ?_⟩
  rw [innerGo_succ, if_pos hen]
  have hav : ¬ (availableOf eps cp allowed).isEmpty = true := by
    intro hc
    apply htop
    have hnil : availableOf eps cp allowed = [] := by
      cases hl : availableOf eps cp allowed with
      | nil => rfl
      | cons x xs => rw [hl] at hc; simp at hc
    unfold topOf
    rw [hnil]
    rfl
  rw [if_neg hav, if_neg (fun hc => htop (List.length_eq_zero.mp hc)), hsub]

/-- Witness for `c5_micro_step`: one food "P" at reserve 100 feeding a need
of 50. -/
theorem c5_micro_step_witness :
    topOf defaultEps (fun _ => (100 : ℚ)) ["P"] =
      (availableOf defaultEps (fun _ => (100 : ℚ)) ["P"]).filter
        (fun f => |(fun _ => (100 : ℚ)) f - maxReserve (fun _ => (100 : ℚ))
          (availableOf defaultEps (fun _ => (100 : ℚ)) ["P"])| ≤ defaultEps) ∧
    subtractAndCheck defaultEps
        (min 50 (((topOf defaultEps (fun _ => (100 : ℚ)) ["P"]).length : ℚ) *
            minReserve (fun _ => (100 : ℚ)) (topOf defaultEps (fun _ => (100 : ℚ)) ["P"])) /
          ((topOf defaultEps (fun _ => (100 : ℚ)) ["P"]).length : ℚ))
        (fun _ => (100 : ℚ)) (topOf defaultEps (fun _ => (100 : ℚ)) ["P"]) =
      some (fun s => if s ∈ topOf defaultEps (fun _ => (100 : ℚ)) ["P"] then
        (fun _ => (100 : ℚ)) s -
          min 50 (((topOf defaultEps (fun _ => (100 : ℚ)) ["P"]).length : ℚ) *
              minReserve (fun _ => (100 : ℚ)) (topOf defaultEps (fun _ => (100 : ℚ)) ["P"])) /
            ((topOf defaultEps (fun _ => (100 : ℚ)) ["P"]).length : ℚ)
        else (fun _ => (100 : ℚ)) s) ∧
    innerGo defaultEps ["P"] (0 + 1) (fun _ => (100 : ℚ)) 50 =
      innerGo defaultEps ["P"] 0
        (fun s => if s ∈ topOf defaultEps (fun _ => (100 : ℚ)) ["P"] then
          (fun _ => (100 : ℚ)) s -
            min 50 (((topOf defaultEps (fun _ => (100 : ℚ)) ["P"]).length : ℚ) *
                minReserve (fun _ => (100 : ℚ)) (topOf defaultEps (fun _ => (100 : ℚ)) ["P"])) /
              ((topOf defaultEps (fun _ => (100 : ℚ)) ["P"]).length : ℚ)
          else (fun _ => (100 : ℚ)) s)
        (50 - min 50 (((topOf defaultEps (fun _ => (100 : ℚ)) ["P"]).length : ℚ) *
          minReserve (fun _ => (100 : ℚ)) (topOf defaultEps (fun _ => (100 : ℚ)) ["P"]))) :=
  c5_micro_step defaultEps (fun _ => (100 : ℚ)) ["P"] 0 50
    (by decide) (by decide) (by decide) (by decide)

/-- Claim C6: `simulate_set` terminates on every input — with outer fuel
`animals.length + 1` and inner fuel 2 the loop result is never `fuelOut`:
every inner iteration either fails or zeroes the eater's need, and every
outer turn removes one hungry animal, fails, or passes. -/
theorem c6_termination (spm : String → Species) (producers animals : List String) (eps : ℚ) :
    terminated (simRun spm producers animals eps) = true := by
  have hlen : (animals.filter fun a => eps < initCn spm a).length < animals.length + 1 :=
    Nat.lt_succ_of_le (List.length_filter_le _ _)
  have hne := @simGo_no_fuelOut spm (producers ++ animals) animals eps (animals.length + 1)
    (initCp spm producers animals) (initCn spm) hlen
  cases hres : simGo spm (producers ++ animals) animals eps (animals.length + 1)
      (initCp spm producers animals) (initCn spm) with
  | pass cp => unfold simRun; rw [hres]; rfl
  | fail => unfold simRun; rw [hres]; rfl
  | fuelOut => exact absurd hres hne

/-- A 3-producer, 10-animal ecosystem used to witness the enumerator claims. -/
def ecoW : Eco :=
  [("P1", ⟨"P1", "Producer", 100, 0, []⟩),
   ("P2", ⟨"P2", "Producer", 100, 0, []⟩),
   ("P3", ⟨"P3", "Producer", 100, 0, []⟩),
   ("A1", ⟨"A1", "Animal", 10, 0, ["P1"]⟩),
   ("A2", ⟨"A2", "Animal", 10, 0, ["P1"]⟩),
   ("A3", ⟨"A3", "Animal", 10, 0, ["P1"]⟩),
   ("A4", ⟨"A4", "Animal", 10, 0, ["P1"]⟩),
   ("A5", ⟨"A5", "Animal", 10, 0, ["P1"]⟩),
   ("A6", ⟨"A6", "Animal", 10, 0, ["P1"]⟩),
   ("A7", ⟨"A7", "Animal", 10, 0, ["P1"]⟩),
   ("A8", ⟨"A8", "Animal", 10, 0, ["P1"]⟩),
   ("A9", ⟨"A9", "Animal", 10, 0, ["P1"]⟩),
   ("AX", ⟨"AX", "Animal", 10, 0, ["P1"]⟩)]

/-- Claim C7: a producer count other than 3 or an animal count other than 10
makes `find_sustainable_sets_for_ecosystem` raise (here: return an error)
instead of reporting any per-subset result. -/
theorem c7_wrong_counts_error (eco : Eco) (k : Nat) (cap : Option Nat) (eps : ℚ)
    (h : (producersOf eco).length ≠ 3 ∨ (animalsAllOf eco).length ≠ 10) :
    exceptIsError (find_sustainable_sets_for_ecosystem eco k cap eps) = true := by
  unfold find_sustainable_sets_for_ecosystem
  rcases h with h | h
  · rw [if_pos h]; rfl
  · by_cases h3 : (producersOf eco).length ≠ 3
    · rw [if_pos h3]; rfl
    · rw [if_neg h3, if_pos h]; rfl

/-- Witness for `c7_wrong_counts_error` on an empty ecosystem. -/
theorem c7_wrong_counts_error_witness :
    exceptIsError (find_sustainable_sets_for_ecosystem [] 5 none defaultEps) = true :=
  c7_wrong_counts_error [] 5 none defaultEps (Or.inl (by decide))

/-- Claim C8: with a positive cap `n`, the returned rows are exactly the first
`n` passing rows in canonical order (never more than `n`), and the number of
combinations handed to the simulator equals `testedUntil`, the count up to and
including the combination producing the `n`-th pass — combinations after it
are never simulated. -/
theorem c8_cap_short_circuit (eco : Eco) (k n : Nat) (eps : ℚ) (rows : List ResultRow)
    (hn : 1 ≤ n)
    (hok : find_sustainable_sets_for_ecosystem eco k (some n) eps = .ok rows) :
    rows.length ≤ n ∧
    rows = (((combinations k (animalsAllOf eco)).filter fun c =>
        simulate_set (spmOf eco) (producersOf eco) c eps).map
        (mkRow (producersOf eco))).take n ∧
    (enumGo (spmOf eco) (producersOf eco) (some n) eps
        (combinations k (animalsAllOf eco)) 0).2 =
      testedUntil (spmOf eco) (producersOf eco) eps n (combinations k (animalsAllOf eco)) ∧
    testedUntil (spmOf eco) (producersOf eco) eps n (combinations k (animalsAllOf eco)) ≤
      (combinations k (animalsAllOf eco)).length := by
  have hrows : rows = (enumGo (spmOf eco) (producersOf eco) (some n) eps
      (combinations k (animalsAllOf eco)) 0).1 := by
    unfold find_sustainable_sets_for_ecosystem at hok
    by_cases h3 : (producersOf eco).length ≠ 3
    · rw [if_pos h3] at hok; cases hok
    · rw [if_neg h3] at hok
      by_cases h10 : (animalsAllOf eco).length ≠ 10
      · rw [if_pos h10] at hok; cases hok
      · rw [if_neg h10] at hok
        injection hok with hok
        exact hok.symm
  have hzn : 0 < n := hn
  have htake := enumGo_cap_rows (spmOf eco) (producersOf eco) eps n
    (combinations k (animalsAllOf eco)) 0 hzn
  rw [Nat.sub_zero] at htake
  refine ⟨?_, ?_, ?_, ?_⟩
  · rw [hrows, htake]
    exact le_trans (List.length_take_le _ _) (le_refl n)
  · rw [hrows, htake]
  · have := enumGo_cap_tested (spmOf eco) (producersOf eco) eps n
      (combinations k (animalsAllOf eco)) 0 hzn
    rwa [Nat.sub_zero] at this
  · exact testedUntil_le (spmOf eco) (producersOf eco) eps _ n

/-- Witness for `c8_cap_short_circuit` with cap 1 on `ecoW`. -/
theorem c8_cap_short_circuit_witness :
    ([mkRow ["P1", "P2", "P3"] ["A1", "A2"]] : List ResultRow).length ≤ 1 ∧
    [mkRow ["P1", "P2", "P3"] ["A1", "A2"]] =
      (((combinations 2 (animalsAllOf ecoW)).filter fun c =>
        simulate_set (spmOf ecoW) (producersOf ecoW) c defaultEps).map
        (mkRow (producersOf ecoW))).take 1 ∧
    (enumGo (spmOf ecoW) (producersOf ecoW) (some 1) defaultEps
        (combinations 2 (animalsAllOf ecoW)) 0).2 =
      testedUntil (spmOf ecoW) (producersOf ecoW) defaultEps 1
        (combinations 2 (animalsAllOf ecoW)) ∧
    testedUntil (spmOf ecoW) (producersOf ecoW) defaultEps 1
        (combinations 2 (animalsAllOf ecoW)) ≤
      (combinations 2 (animalsAllOf ecoW)).length :=
  c8_cap_short_circuit ecoW 2 1 defaultEps [mkRow ["P1", "P2", "P3"] ["A1", "A2"]]
    (by decide) rfl

/-- Claim C9: with no cap and a valid ecosystem, the simulator is invoked once
per combination — `C(10, k)` invocations in canonical order, always with the
full producer set — and one row is appended per pass. -/
theorem c9_uncapped_enumeration (eco : Eco) (k : Nat) (eps : ℚ) (rows : List ResultRow)
    (h3 : (producersOf eco).length = 3) (h10 : (animalsAllOf eco).length = 10)
    (hok : find_sustainable_sets_for_ecosystem eco k none eps = .ok rows) :
    rows = ((combinations k (animalsAllOf eco)).filter fun c =>
        simulate_set (spmOf eco) (producersOf eco) c eps).map (mkRow (producersOf eco)) ∧
    (enumGo (spmOf eco) (producersOf eco) none eps
        (combinations k (animalsAllOf eco)) 0).2 =
      (combinations k (animalsAllOf eco)).length ∧
    (combinations k (animalsAllOf eco)).length = Nat.choose 10 k := by
  have hrows : rows = (enumGo (spmOf eco) (producersOf eco) none eps
      (combinations k (animalsAllOf eco)) 0).1 := by
    unfold find_sustainable_sets_for_ecosystem at hok
    rw [if_neg (by rw [h3]; exact fun hc => hc rfl),
      if_neg (by rw [h10]; exact fun hc => hc rfl)] at hok
    injection hok with hok
    exact hok.symm
  refine ⟨?_, ?_, ?_⟩
  · rw [hrows, enumGo_none_spec]
  · rw [enumGo_none_spec]
  · rw [combinations_length, h10]

/-- Witness for `c9_uncapped_enumeration` on `ecoW` with `k = 10`. -/
theorem c9_uncapped_enumeration_witness :
    [mkRow ["P1", "P2", "P3"]
        ["A1", "A2", "A3", "A4", "A5", "A6", "A7", "A8", "A9", "AX"]] =
      ((combinations 10 (animalsAllOf ecoW)).filter fun c =>
        simulate_set (spmOf ecoW) (producersOf ecoW) c defaultEps).map
        (mkRow (producersOf ecoW)) ∧
    (enumGo (spmOf ecoW) (producersOf ecoW) none defaultEps
        (combinations 10 (animalsAllOf ecoW)) 0).2 =
      (combinations 10 (animalsAllOf ecoW)).length ∧
    (combinations 10 (animalsAllOf ecoW)).length = Nat.choose 10 10 :=
  c9_uncapped_enumeration ecoW 10 defaultEps
    [mkRow ["P1", "P2", "P3"] ["A1", "A2", "A3", "A4", "A5", "A6", "A7", "A8", "A9", "AX"]]
    (by decide) (by decide) rfl

/-- Claim C10: when every chosen animal's initial need is at most `eps`
(in particular with no animals at all), `simulate_set` passes immediately and
no reserve is reduced — the final reserves are the initial ones — even if an
animal has an empty food list or a species has reserve 0. -/
theorem c10_all_satisfied (spm : String → Species) (producers animals : List String)
    (eps : ℚ) (h : ∀ a ∈ animals, (spm a).cn0 ≤ eps) :
    simRun spm producers animals eps = .pass (initCp spm producers animals) ∧
    simulate_set spm producers animals eps = true := by
  have hfil : (animals.filter fun a => eps < initCn spm a) = [] := by
    rw [List.filter_eq_nil_iff]
    intro a ha
    simp only [initCn, decide_eq_true_eq, not_lt]
    exact h a ha
  have hpass : simRun spm producers animals eps = .pass (initCp spm producers animals) := by
    unfold simRun
    rw [simGo_succ, hfil]
    rfl
  refine ⟨hpass, ?_⟩
  unfold simulate_set
  rw [hpass]
  rfl

/-- Witness for `c10_all_satisfied`: one animal with need 0, reserve 0 and a
food source outside the selected set. -/
theorem c10_all_satisfied_witness :
    simRun (fun _ => ⟨"A", "Animal", 0, 0, ["X"]⟩) [] ["A"] defaultEps =
      .pass (initCp (fun _ => ⟨"A", "Animal", 0, 0, ["X"]⟩) [] ["A"]) ∧
    simulate_set (fun _ => ⟨"A", "Animal", 0, 0, ["X"]⟩) [] ["A"] defaultEps = true :=
  c10_all_satisfied (fun _ => ⟨"A", "Animal", 0, 0, ["X"]⟩) [] ["A"] defaultEps (by decide)

end EcoSolve
